import Mathlib

/-
Shallow embedding of the hikcam_ocr pipeline (src/paddle_ocr.py, with topics
from src/mqtt_client.py).  Strings are Lean strings via their character lists;
Python float seconds and OCR confidences are modelled as exact rationals;
machine error codes are integers.  Hardware and OCR outcomes are inputs to the
embedded control functions.
-/

/- Global configuration constants (src/paddle_ocr.py, lines 46-63). -/

def TTL_SECONDS : ℚ := 5

/-- The float literal 0.8, as the exact rational 8/10. -/
def OCR_CONFIDENCE_THRESHOLD : ℚ := mkRat 8 10

def CAMERA_MAX_FAILURES : Nat := 3

def ENABLE_CODE_FILTER : Bool := true

def CODE_PREFIX : String := "LKTT"

def CODE_LENGTH : Nat := 10

/-- Success return code of the vendor SDK calls (mvs.MV_OK). -/
def MV_OK : Int := 0

/-- Characters kept by re.sub(r"[^a-zA-Z0-9]", "", code): ASCII digits
(codepoints 48-57), uppercase letters (65-90) and lowercase letters (97-122);
every other character, ASCII or not, is removed. -/
def isAsciiAlnum (c : Char) : Bool :=
  decide ((48 ≤ c.toNat ∧ c.toNat ≤ 57) ∨ (65 ≤ c.toNat ∧ c.toNat ≤ 90) ∨
    (97 ≤ c.toNat ∧ c.toNat ≤ 122))

/-- re.sub(r"[^a-zA-Z0-9]", "", code).upper() (src/paddle_ocr.py, line 92).
After the regex substitution only ASCII alphanumerics remain, on which Python
str.upper() maps a-z to A-Z and fixes everything else, which is exactly
Char.toUpper. -/
def cleanCode (s : String) : String :=
  ⟨(s.data.filter isAsciiAlnum).map Char.toUpper⟩

/-- Python s.startswith(p): the first p-length characters of s are exactly p. -/
def strStartsWith (s p : String) : Bool :=
  decide (p.data = s.data.take p.data.length)

/-- Values a caller might pass to fix_code in place of a str; the
isinstance(code, str) guard holds only for the str constructor. -/
inductive PyValue
  | str (s : String)
  | int (n : Int)
  | float (q : ℚ)
  | boolean (b : Bool)
  | pyNone
  | listOf (vs : List PyValue)

/-- isinstance(code, str) (src/paddle_ocr.py, line 90). -/
def isinstance_str : PyValue → Bool
  | .str _ => true
  | _ => false

/-- Body of fix_code after the isinstance guard (src/paddle_ocr.py, lines
92-99), with the ENABLE_CODE_FILTER configuration passed explicitly: clean the
string, then if the business filter is on keep it only when it starts with
CODE_PREFIX and has exactly CODE_LENGTH characters. -/
def fix_code_with (enable_filter : Bool) (code : String) : String :=
  let cleaned_code := cleanCode code
  if enable_filter then
    if strStartsWith cleaned_code CODE_PREFIX &&
        decide (cleaned_code.data.length = CODE_LENGTH) then cleaned_code
    else ""
  else cleaned_code

/-- fix_code (src/paddle_ocr.py, lines 83-99): a non-str input is rejected
with "", a str input is cleaned and filtered under the global configuration. -/
def fix_code : PyValue → String
  | .str s => fix_code_with ENABLE_CODE_FILTER s
  | _ => ""

/-- One OCR detection: word_info[1][0] is the text, word_info[1][1] the
confidence (src/paddle_ocr.py, lines 225-226). -/
structure TextDetection where
  text : String
  confidence : ℚ
deriving DecidableEq

/-- Survivors of one OCR line (src/paddle_ocr.py, lines 224-230): keep
fix_code(text) for each detection whose confidence is strictly above the
threshold and whose normalization is non-empty (Python string truthiness). -/
def lineResults (line : List TextDetection) : List String :=
  line.filterMap (fun w =>
    if OCR_CONFIDENCE_THRESHOLD < w.confidence then
      let cleaned_text := fix_code (.str w.text)
      if cleaned_text = "" then none else some cleaned_text
    else none)

/-- The results list built by the nested loops over ocr_results
(src/paddle_ocr.py, lines 218-230); a None line is skipped, surviving
normalized texts are appended in detection order. -/
def collectResults (ocr_results : List (Option (List TextDetection))) : List String :=
  ocr_results.foldl (fun results line =>
    match line with
    | some ws => results ++ lineResults ws
    | none => results) []

/-- Keys of Counter(results) in CPython dict insertion order: each distinct
value once, ordered by first occurrence. -/
def keysAux (seen : List String) : List String → List String
  | [] => []
  | x :: xs => if x ∈ seen then keysAux seen xs else x :: keysAux (x :: seen) xs

def keysInOrder (results : List String) : List String :=
  keysAux [] results

/-- max(items, key=count) over the remaining Counter keys, as CPython's
heapq.nlargest(1) computes it: the running best is replaced only on a strictly
larger count, so the earliest key wins ties. -/
def pickMax (results : List String) (k : String) (ks : List String) : String :=
  ks.foldl (fun best x =>
    if results.count best < results.count x then x else best) k

/-- Counter(results).most_common(1)[0][0] (src/paddle_ocr.py, line 239):
Counter keys are formed in first-encountered order and most_common(1) takes
the maximum by count, keeping the first maximal key. -/
def mostCommon1 (results : List String) : Option String :=
  match keysInOrder results with
  | [] => none
  | k :: ks => some (pickMax results k ks)

/-- The recognition-aggregation step of capture_and_ocr (src/paddle_ocr.py,
lines 218-241): collect the surviving normalized detections; an empty list
yields None, otherwise the most common value is returned. -/
def aggregate (ocr_results : List (Option (List TextDetection))) : Option String :=
  mostCommon1 (collectResults ocr_results)

/-- Observable outcome of one capture_and_ocr call: the consecutive_failures
counter after the call, how many times reconnect_camera was invoked during the
call, and the returned value. -/
structure CaptureResult where
  failuresAfter : Nat
  reconnectCalls : Nat
  result : Option String
deriving DecidableEq

/-- capture_and_ocr (src/paddle_ocr.py, lines 179-251) as a function of the
consecutive_failures counter, the MV_CC_GetImageBuffer outcome, the result a
reconnect_camera call would have, and the OCR detector output.  On fetch
failure the counter is incremented and, once it reaches CAMERA_MAX_FAILURES,
reconnect_camera is invoked once; a successful reconnect resets the counter.
On fetch success the counter is reset and the detections are aggregated. -/
def capture_and_ocr (consecutive_failures : Nat) (fetchOk : Bool)
    (reconnectOk : Bool) (ocr_results : List (Option (List TextDetection))) :
    CaptureResult :=
  if fetchOk then
    ⟨0, 0, aggregate ocr_results⟩
  else
    let f := consecutive_failures + 1
    if CAMERA_MAX_FAILURES ≤ f then
      if reconnectOk then ⟨0, 1, none⟩ else ⟨f, 1, none⟩
    else ⟨f, 0, none⟩

/-- n consecutive fetch-failure calls to capture_and_ocr starting from a zero
counter: returns the final counter value and the total number of
reconnect_camera invocations over the run. -/
def runFailures (reconnectOk : Bool) : Nat → Nat × Nat
  | 0 => (0, 0)
  | n + 1 =>
    let p := runFailures reconnectOk n
    let r := capture_and_ocr p.1 false reconnectOk []
    (r.failuresAfter, p.2 + r.reconnectCalls)

/-- Control-flow outcomes of one capture_and_ocr body relevant to the buffer:
no exception, an exception before frame_out is assigned (the software-trigger
command, line 189), an exception raised by MV_CC_GetImageBuffer itself (so
'ret' never enters locals), or an exception in the downstream processing after
the fetch returned (lines 209-241). -/
inductive CaptureExc
  | noExc
  | atTriggerCommand
  | atGetImageBuffer
  | atProcessing

/-- State observed by the finally block: whether frame_out is not None,
whether 'ret' is in locals() and its value, and whether the device actually
handed out a buffer (the fetch ran and returned MV_OK). -/
structure FinallyState where
  frameOutSet : Bool
  retDefined : Bool
  retVal : Int
  bufferAcquired : Bool

/-- The state reaching the finally block of capture_and_ocr for each
control-flow outcome, given the value MV_CC_GetImageBuffer returned (when it
returned at all). -/
def captureFinallyState (exc : CaptureExc) (ret : Int) : FinallyState :=
  match exc with
  | .atTriggerCommand => ⟨false, false, ret, false⟩
  | .atGetImageBuffer => ⟨true, false, ret, false⟩
  | .atProcessing => ⟨true, true, ret, decide (ret = MV_OK)⟩
  | .noExc => ⟨true, true, ret, decide (ret = MV_OK)⟩

/-- The finally block (src/paddle_ocr.py, lines 247-251): MV_CC_FreeImageBuffer
is called iff frame_out is not None, 'ret' is in locals() and ret == MV_OK. -/
def bufferReleased (st : FinallyState) : Bool :=
  st.frameOutSet && st.retDefined && decide (st.retVal = MV_OK)

/-- on_mqtt_message (src/paddle_ocr.py, lines 265-270): the parsed trigger is
enqueued iff its age at ingestion does not exceed TTL_SECONDS. -/
def on_mqtt_enqueues (now issuedAt : ℚ) : Bool :=
  !decide (now - issuedAt > TTL_SECONDS)

/-- Main-loop freshness re-check (src/paddle_ocr.py, lines 311-317):
capture_and_ocr is invoked for a dequeued trigger iff its age at dequeue does
not exceed TTL_SECONDS. -/
def dequeue_invokes_capture (now issuedAt : ℚ) : Bool :=
  !decide (now - issuedAt > TTL_SECONDS)

/-- A trigger leads to a capture attempt iff it passes the ingestion check and
the dequeue-time check. -/
def trigger_captured (nowAtIngest nowAtDequeue issuedAt : ℚ) : Bool :=
  on_mqtt_enqueues nowAtIngest issuedAt && dequeue_invokes_capture nowAtDequeue issuedAt

/-- Observable outcome of one main-loop iteration: the payloads published to
MQTT_TOPIC_PUB and the consecutive_failures counter afterwards. -/
structure LoopIterResult where
  published : List String
  failuresAfter : Nat
deriving DecidableEq

/-- One main-loop iteration that dequeued a trigger (src/paddle_ocr.py, lines
309-320): re-check freshness, run capture_and_ocr, and publish the result iff
it is truthy (not None and non-empty). -/
def main_loop_iter (consecutive_failures : Nat) (nowAtDequeue issuedAt : ℚ)
    (fetchOk reconnectOk : Bool)
    (ocr_results : List (Option (List TextDetection))) : LoopIterResult :=
  if nowAtDequeue - issuedAt > TTL_SECONDS then ⟨[], consecutive_failures⟩
  else
    let r := capture_and_ocr consecutive_failures fetchOk reconnectOk ocr_results
    match r.result with
    | some code => if code = "" then ⟨[], r.failuresAfter⟩ else ⟨[code], r.failuresAfter⟩
    | none => ⟨[], r.failuresAfter⟩

/- Helper lemmas about characters and cleaning. -/

theorem cleanCode_data (s : String) :
    (cleanCode s).data = (s.data.filter isAsciiAlnum).map Char.toUpper := rfl

theorem strAppend_data (a b : String) : (a ++ b).data = a.data ++ b.data := by
  cases a; cases b; rfl

theorem toNat_toUpper_of_lower {c : Char} (h1 : 97 ≤ c.toNat) (h2 : c.toNat ≤ 122) :
    (Char.toUpper c).toNat = c.toNat - 32 := by
  have hval : (c.toNat - 32).isValidChar := Or.inl (by omega)
  unfold Char.toUpper
  rw [if_pos ⟨h1, h2⟩]
  unfold Char.ofNat
  rw [dif_pos hval]
  rfl

theorem toUpper_eq_self {c : Char} (h : ¬(97 ≤ c.toNat ∧ c.toNat ≤ 122)) :
    Char.toUpper c = c := by
  unfold Char.toUpper
  exact if_neg h

theorem toUpper_toUpper (c : Char) : Char.toUpper (Char.toUpper c) = Char.toUpper c := by
  by_cases h : 97 ≤ c.toNat ∧ c.toNat ≤ 122
  · have ht := toNat_toUpper_of_lower h.1 h.2
    apply toUpper_eq_self
    rw [ht]
    omega
  · rw [toUpper_eq_self h, toUpper_eq_self h]

theorem isAsciiAlnum_toUpper {c : Char} (h : isAsciiAlnum c = true) :
    isAsciiAlnum (Char.toUpper c) = true := by
  by_cases hl : 97 ≤ c.toNat ∧ c.toNat ≤ 122
  · have ht := toNat_toUpper_of_lower hl.1 hl.2
    simp only [isAsciiAlnum, decide_eq_true_eq] at h ⊢
    rw [ht]
    omega
  · rw [toUpper_eq_self hl]
    exact h

theorem mem_cleanCode_alnum {s : String} {x : Char} (hx : x ∈ (cleanCode s).data) :
    isAsciiAlnum x = true := by
  rw [cleanCode_data] at hx
  obtain ⟨y, hy, rfl⟩ := List.mem_map.mp hx
  exact isAsciiAlnum_toUpper (List.mem_filter.mp hy).2

theorem mem_cleanCode_toUpper_fix {s : String} {x : Char} (hx : x ∈ (cleanCode s).data) :
    Char.toUpper x = x := by
  rw [cleanCode_data] at hx
  obtain ⟨y, _, rfl⟩ := List.mem_map.mp hx
  exact toUpper_toUpper y

theorem map_eq_self_of_fix {α : Type} (f : α → α) :
    ∀ l : List α, (∀ x ∈ l, f x = x) → l.map f = l := by
  intro l
  induction l with
  | nil => intro _; rfl
  | cons a t ih =>
    intro h
    simp only [List.map_cons]
    rw [h a (by simp), ih (fun x hx => h x (by simp [hx]))]

theorem cleanCode_idem (s : String) : cleanCode (cleanCode s) = cleanCode s := by
  have hfilter : (cleanCode s).data.filter isAsciiAlnum = (cleanCode s).data :=
    List.filter_eq_self.mpr (fun a ha => mem_cleanCode_alnum ha)
  have hmap : (cleanCode s).data.map Char.toUpper = (cleanCode s).data :=
    map_eq_self_of_fix _ _ (fun x hx => mem_cleanCode_toUpper_fix hx)
  show (⟨((cleanCode s).data.filter isAsciiAlnum).map Char.toUpper⟩ : String) = cleanCode s
  rw [hfilter, hmap]

/- Unfolding equations of fix_code_with. -/

theorem fix_code_with_true (s : String) :
    fix_code_with true s =
      if strStartsWith (cleanCode s) CODE_PREFIX &&
          decide ((cleanCode s).data.length = CODE_LENGTH) then cleanCode s
      else "" := rfl

theorem fix_code_with_false (s : String) : fix_code_with false s = cleanCode s := rfl

theorem fix_code_with_idem (b : Bool) (s : String) :
    fix_code_with b (fix_code_with b s) = fix_code_with b s := by
  cases b with
  | false =>
    rw [fix_code_with_false, fix_code_with_false]
    exact cleanCode_idem s
  | true =>
    rw [fix_code_with_true s]
    by_cases h : (strStartsWith (cleanCode s) CODE_PREFIX &&
        decide ((cleanCode s).data.length = CODE_LENGTH)) = true
    · rw [if_pos h, fix_code_with_true, cleanCode_idem s, if_pos h]
    · rw [if_neg h]
      decide

theorem strStartsWith_iff (s p : String) :
    strStartsWith s p = true ↔ ∃ t : List Char, s.data = p.data ++ t := by
  unfold strStartsWith
  rw [decide_eq_true_eq]
  constructor
  · intro h
    refine ⟨s.data.drop p.data.length, ?_⟩
    conv_lhs => rw [← List.take_append_drop p.data.length s.data]
    rw [← h]
  · rintro ⟨t, ht⟩
    rw [ht, List.take_left]

/-- C9: normalization is idempotent: for every string s and in both the
filter-enabled and filter-disabled configurations, applying fix_code to its
own output (including the empty rejection value) leaves the result
unchanged. -/
theorem C9_fix_code_idempotent (enable_filter : Bool) (s : String) :
    fix_code_with enable_filter (fix_code_with enable_filter s) =
      fix_code_with enable_filter s :=
  fix_code_with_idem enable_filter s

/-- C10: fix_code is total over arbitrary Python values: every non-string
input yields the empty rejection value rather than an exception. -/
theorem C10_nonstring_rejected (v : PyValue) (h : isinstance_str v = false) :
    fix_code v = "" := by
  cases v <;> simp_all [isinstance_str, fix_code]

theorem C10_witness :
    isinstance_str (PyValue.int 7) = false ∧ fix_code (PyValue.int 7) = "" :=
  ⟨rfl, C10_nonstring_rejected (PyValue.int 7) rfl⟩

/-- C1 counterexample: the claim asserts normalize("lktt12345") returns
"LKTT12345" (accepted), but the cleaned string has 9 characters, not
CODE_LENGTH = 10, so fix_code rejects it with "". -/
theorem C1_counterexample :
    fix_code (.str "lktt12345") = "" ∧ fix_code (.str "lktt12345") ≠ "LKTT12345" := by
  refine ⟨by decide, by decide⟩

/-- C1 (amended): with the business filter enabled and the configuration
prefix "LKTT" and length 10, fix_code returns a non-empty value exactly for
inputs whose alphanumeric-stripped, upper-cased form equals the configured
prefix followed by digits/letters totaling the configured length; in
particular fix_code("lktt123456") = "LKTT123456" (accepted, 10 characters),
while "LKTT123" and "XXTT123456" are rejected. -/
theorem C1_amended_normalize_filter :
    (∀ s : String, fix_code (.str s) ≠ "" ↔
      ∃ rest : String, cleanCode s = CODE_PREFIX ++ rest ∧
        rest.data.all isAsciiAlnum = true ∧
        (cleanCode s).data.length = CODE_LENGTH) ∧
    fix_code (.str "lktt123456") = "LKTT123456" ∧
    fix_code (.str "LKTT123") = "" ∧
    fix_code (.str "XXTT123456") = "" := by
  refine ⟨?_, by decide, by decide, by decide⟩
  intro s
  show fix_code_with true s ≠ "" ↔ _
  rw [fix_code_with_true]
  constructor
  · intro hne
    by_cases h : (strStartsWith (cleanCode s) CODE_PREFIX &&
        decide ((cleanCode s).data.length = CODE_LENGTH)) = true
    · rw [Bool.and_eq_true, decide_eq_true_eq] at h
      obtain ⟨hsw, hlen⟩ := h
      obtain ⟨t, ht⟩ := (strStartsWith_iff _ _).mp hsw
      refine ⟨⟨t⟩, ?_, ?_, hlen⟩
      · apply String.ext
        rw [strAppend_data, ht]
      · rw [List.all_eq_true]
        intro x hx
        apply mem_cleanCode_alnum (s := s)
        rw [ht]
        exact List.mem_append_right _ hx
    · rw [if_neg h] at hne
      exact absurd rfl hne
  · rintro ⟨rest, heq, _, hlen⟩
    have hsw : strStartsWith (cleanCode s) CODE_PREFIX = true := by
      rw [strStartsWith_iff]
      refine ⟨rest.data, ?_⟩
      rw [heq, strAppend_data]
    rw [if_pos (by rw [Bool.and_eq_true, decide_eq_true_eq]; exact ⟨hsw, hlen⟩)]
    intro hcontra
    have hzero : (cleanCode s).data.length = 0 := by rw [hcontra]; rfl
    rw [hlen] at hzero
    exact absurd hzero (by decide)

theorem C1_witness : fix_code (.str "LKTT12B456") ≠ "" :=
  (C1_amended_normalize_filter.1 "LKTT12B456").mpr
    ⟨"12B456", by decide, by decide, by decide⟩

/-- C3: whenever a frame buffer was actually acquired (the fetch returned
MV_OK), the finally block makes the matching MV_CC_FreeImageBuffer call before
capture_and_ocr returns, on the success path and on every
processing-exception path alike; and the release happens exactly when a
buffer was acquired, so no error return leaves an acquired buffer
unreleased. -/
theorem C3_buffer_release (exc : CaptureExc) (ret : Int) :
    bufferReleased (captureFinallyState exc ret) =
      (captureFinallyState exc ret).bufferAcquired := by
  cases exc <;> simp [bufferReleased, captureFinallyState]

/-- C5: a trigger whose age exceeds TTL_SECONDS at ingestion or at dequeue
time is discarded and no capture attempt occurs for it. -/
theorem C5_stale_no_capture (nowAtIngest nowAtDequeue issuedAt : ℚ)
    (h : nowAtIngest - issuedAt > TTL_SECONDS ∨
      nowAtDequeue - issuedAt > TTL_SECONDS) :
    trigger_captured nowAtIngest nowAtDequeue issuedAt = false := by
  rcases h with h | h <;>
    simp [trigger_captured, on_mqtt_enqueues, dequeue_invokes_capture, h]

theorem C5_witness : trigger_captured 100 100 0 = false :=
  C5_stale_no_capture 100 100 0 (Or.inl (by norm_num [TTL_SECONDS]))

/-- C2: in a run of consecutive fetch failures starting from a reset counter,
the first two failures only increment the counter (to 1 and 2) and invoke no
reconnect; the third (CAMERA_MAX_FAILURES-th) failure invokes
reconnect_camera exactly once within that capture call, hence before any next
capture attempt; a successful reconnect resets the counter to zero, and any
fetch success resets it to zero. -/
theorem C2_failure_reconnect_policy :
    (∀ reconnectOk : Bool,
      (runFailures reconnectOk 1).1 = 1 ∧ (runFailures reconnectOk 1).2 = 0 ∧
      (runFailures reconnectOk 2).1 = 2 ∧ (runFailures reconnectOk 2).2 = 0 ∧
      (runFailures reconnectOk CAMERA_MAX_FAILURES).2 = 1) ∧
    (runFailures true CAMERA_MAX_FAILURES).1 = 0 ∧
    (∀ (consecutive_failures : Nat) (reconnectOk : Bool)
        (ocr_results : List (Option (List TextDetection))),
      (capture_and_ocr consecutive_failures true reconnectOk
        ocr_results).failuresAfter = 0) := by
  refine ⟨?_, by decide, ?_⟩
  · intro rOk
    cases rOk <;> decide
  · intro f rOk ocr
    rfl

/-- C4 counterexample: the claim's detection set normalizes to 9-character
codes, which the length-10 business filter rejects, so aggregation returns
None rather than "LKTT12345". -/
theorem C4_counterexample :
    aggregate [some [⟨"LKTT12345", mkRat 9 10⟩, ⟨"lktt12345", mkRat 85 100⟩,
        ⟨"other", mkRat 95 100⟩]] = none ∧
    aggregate [some [⟨"LKTT12345", mkRat 9 10⟩, ⟨"lktt12345", mkRat 85 100⟩,
        ⟨"other", mkRat 95 100⟩]] ≠ some "LKTT12345" := by
  refine ⟨by decide, by decide⟩

/-- C4 (amended): with confidence threshold 0.8 and the business filter
enabled (prefix "LKTT", length 10), aggregating the detections
[("LKTT123456", 0.9), ("lktt123456", 0.85), ("other", 0.95)] returns
"LKTT123456": the two normalized matches outvote the one rejected
candidate. -/
theorem C4_amended_aggregate_vote :
    aggregate [some [⟨"LKTT123456", mkRat 9 10⟩, ⟨"lktt123456", mkRat 85 100⟩,
        ⟨"other", mkRat 95 100⟩]] = some "LKTT123456" := by
  decide

/- Helper lemmas about pickMax, keysAux and mostCommon1. -/

theorem pickMax_nil (l : List String) (k : String) : pickMax l k [] = k := rfl

theorem pickMax_cons (l : List String) (k x : String) (ks : List String) :
    pickMax l k (x :: ks) =
      pickMax l (if l.count k < l.count x then x else k) ks := rfl

theorem pickMax_mem (l : List String) (ks : List String) :
    ∀ k, pickMax l k ks ∈ k :: ks := by
  induction ks with
  | nil =>
    intro k
    rw [pickMax_nil]
    exact List.mem_cons_self k []
  | cons x xs ih =>
    intro k
    rw [pickMax_cons]
    by_cases hc : l.count k < l.count x
    · rw [if_pos hc]
      rcases List.mem_cons.mp (ih x) with h | h <;> simp [h]
    · rw [if_neg hc]
      rcases List.mem_cons.mp (ih k) with h | h <;> simp [h]

theorem pickMax_count_le (l : List String) (ks : List String) :
    ∀ k y, y ∈ k :: ks → l.count y ≤ l.count (pickMax l k ks) := by
  induction ks with
  | nil =>
    intro k y hy
    rw [List.mem_singleton] at hy
    rw [pickMax_nil, hy]
  | cons x xs ih =>
    intro k y hy
    rw [pickMax_cons]
    have hk : l.count k ≤ l.count (if l.count k < l.count x then x else k) := by
      split <;> omega
    have hx : l.count x ≤ l.count (if l.count k < l.count x then x else k) := by
      split <;> omega
    have hbest := ih (if l.count k < l.count x then x else k) _ (List.mem_cons_self _ _)
    rcases List.mem_cons.mp hy with rfl | hy'
    · exact le_trans hk hbest
    · rcases List.mem_cons.mp hy' with rfl | hy''
      · exact le_trans hx hbest
      · exact ih _ y (List.mem_cons_of_mem _ hy'')

theorem pickMax_first (l : List String) (ks : List String) :
    ∀ k, ∃ as bs, k :: ks = as ++ pickMax l k ks :: bs ∧
      ∀ y ∈ as, l.count y < l.count (pickMax l k ks) := by
  induction ks with
  | nil =>
    intro k
    exact ⟨[], [], by rw [pickMax_nil]; rfl, by simp⟩
  | cons x xs ih =>
    intro k
    rw [pickMax_cons]
    by_cases hc : l.count k < l.count x
    · rw [if_pos hc]
      obtain ⟨as, bs, heq, hlt⟩ := ih x
      refine ⟨k :: as, bs, ?_, ?_⟩
      · rw [List.cons_append, ← heq]
      · intro y hy
        rcases List.mem_cons.mp hy with rfl | hy'
        · exact lt_of_lt_of_le hc (pickMax_count_le l xs x x (List.mem_cons_self _ _))
        · exact hlt y hy'
    · rw [if_neg hc]
      obtain ⟨as, bs, heq, hlt⟩ := ih k
      cases as with
      | nil =>
        rw [List.nil_append] at heq
        injection heq with h1 h2
        refine ⟨[], x :: xs, ?_, by simp⟩
        rw [List.nil_append, ← h1]
      | cons a as' =>
        rw [List.cons_append] at heq
        injection heq with h1 h2
        refine ⟨k :: x :: as', bs, ?_, ?_⟩
        · rw [List.cons_append, List.cons_append, ← h2]
        · intro y hy
          have hklt : l.count k < l.count (pickMax l k xs) := by
            apply hlt
            rw [h1]
            exact List.mem_cons_self a as'
          rcases List.mem_cons.mp hy with rfl | hy'
          · exact hklt
          · rcases List.mem_cons.mp hy' with rfl | hy''
            · omega
            · exact hlt y (List.mem_cons_of_mem a hy'')

theorem keysAux_nil (seen : List String) : keysAux seen [] = [] := rfl

theorem keysAux_cons (seen : List String) (x : String) (t : List String) :
    keysAux seen (x :: t) =
      if x ∈ seen then keysAux seen t else x :: keysAux (x :: seen) t := rfl

theorem mem_keysAux : ∀ (xs seen : List String) (a : String),
    a ∈ keysAux seen xs ↔ a ∈ xs ∧ a ∉ seen := by
  intro xs
  induction xs with
  | nil =>
    intro seen a
    rw [keysAux_nil]
    simp
  | cons x t ih =>
    intro seen a
    rw [keysAux_cons]
    by_cases hx : x ∈ seen
    · rw [if_pos hx, ih seen a, List.mem_cons]
      constructor
      · rintro ⟨h1, h2⟩
        exact ⟨Or.inr h1, h2⟩
      · rintro ⟨h1 | h1, h2⟩
        · subst h1
          exact absurd hx h2
        · exact ⟨h1, h2⟩
    · simp only [if_neg hx, List.mem_cons, ih]
      by_cases hax : a = x
      · subst hax
        simp [hx]
      · simp only [hax, false_or]

theorem keysAux_decomp : ∀ (xs seen as bs : List String) (c x : String),
    keysAux seen xs = as ++ c :: bs → x ∈ bs →
    ∃ pre post, xs = pre ++ c :: post ∧ x ∉ pre ∧ c ∉ pre := by
  intro xs
  induction xs with
  | nil =>
    intro seen as bs c x h hx
    rw [keysAux_nil] at h
    exact absurd h.symm (by simp)
  | cons a t ih =>
    intro seen as bs c x h hx
    rw [keysAux_cons] at h
    by_cases ha : a ∈ seen
    · rw [if_pos ha] at h
      obtain ⟨pre, post, h1, h2, h3⟩ := ih seen as bs c x h hx
      have hxmem : x ∈ keysAux seen t := by
        rw [h]
        exact List.mem_append_right _ (List.mem_cons_of_mem _ hx)
      have hcmem : c ∈ keysAux seen t := by
        rw [h]
        exact List.mem_append_right _ (List.mem_cons_self _ _)
      have hxs : x ∉ seen := ((mem_keysAux t seen x).mp hxmem).2
      have hcs : c ∉ seen := ((mem_keysAux t seen c).mp hcmem).2
      refine ⟨a :: pre, post, by rw [List.cons_append, h1], ?_, ?_⟩
      · intro hmem
        rcases List.mem_cons.mp hmem with rfl | hmem'
        · exact hxs ha
        · exact h2 hmem'
      · intro hmem
        rcases List.mem_cons.mp hmem with rfl | hmem'
        · exact hcs ha
        · exact h3 hmem'
    · rw [if_neg ha] at h
      cases as with
      | nil =>
        rw [List.nil_append] at h
        injection h with h1 h2
        refine ⟨[], t, by rw [List.nil_append, h1], by simp, by simp⟩
      | cons a' as' =>
        rw [List.cons_append] at h
        injection h with h1 h2
        obtain ⟨pre, post, hp1, hp2, hp3⟩ := ih (a :: seen) as' bs c x h2 hx
        have hxmem : x ∈ keysAux (a :: seen) t := by
          rw [h2]
          exact List.mem_append_right _ (List.mem_cons_of_mem _ hx)
        have hcmem : c ∈ keysAux (a :: seen) t := by
          rw [h2]
          exact List.mem_append_right _ (List.mem_cons_self _ _)
        have hxa : x ∉ a :: seen := ((mem_keysAux t (a :: seen) x).mp hxmem).2
        have hca : c ∉ a :: seen := ((mem_keysAux t (a :: seen) c).mp hcmem).2
        refine ⟨a :: pre, post, by rw [List.cons_append, hp1], ?_, ?_⟩
        · intro hmem
          rcases List.mem_cons.mp hmem with rfl | hmem'
          · exact hxa (List.mem_cons_self _ _)
          · exact hp2 hmem'
        · intro hmem
          rcases List.mem_cons.mp hmem with rfl | hmem'
          · exact hca (List.mem_cons_self _ _)
          · exact hp3 hmem'

theorem mostCommon1_mem {l : List String} {c : String} (h : mostCommon1 l = some c) :
    c ∈ l := by
  cases hk : keysInOrder l with
  | nil =>
    have hnone : mostCommon1 l = none := by
      unfold mostCommon1
      rw [hk]
    rw [hnone] at h
    exact Option.noConfusion h
  | cons k ks =>
    have hsome : mostCommon1 l = some (pickMax l k ks) := by
      unfold mostCommon1
      rw [hk]
    rw [hsome] at h
    injection h with h1
    have hpm : pickMax l k ks ∈ keysAux [] l := by
      rw [show keysAux [] l = keysInOrder l from rfl, hk]
      exact pickMax_mem l ks k
    rw [← h1]
    exact ((mem_keysAux l [] _).mp hpm).1

theorem mem_lineResults {c : String} {ws : List TextDetection} (h : c ∈ lineResults ws) :
    ∃ w, w ∈ ws ∧ fix_code (.str w.text) = c ∧ c ≠ "" := by
  unfold lineResults at h
  rw [List.mem_filterMap] at h
  obtain ⟨w, hw, hf⟩ := h
  dsimp only at hf
  by_cases hconf : OCR_CONFIDENCE_THRESHOLD < w.confidence
  · rw [if_pos hconf] at hf
    by_cases hemp : fix_code (.str w.text) = ""
    · rw [if_pos hemp] at hf
      exact Option.noConfusion hf
    · rw [if_neg hemp] at hf
      injection hf with hf1
      refine ⟨w, hw, hf1, ?_⟩
      rw [← hf1]
      exact hemp
  · rw [if_neg hconf] at hf
    exact Option.noConfusion hf

theorem mem_collectResults_aux {c : String} :
    ∀ (lines : List (Option (List TextDetection))) (acc : List String),
      c ∈ lines.foldl (fun results line =>
        match line with
        | some ws => results ++ lineResults ws
        | none => results) acc →
      c ∈ acc ∨ ∃ ws, c ∈ lineResults ws := by
  intro lines
  induction lines with
  | nil =>
    intro acc h
    exact Or.inl h
  | cons line rest ih =>
    intro acc h
    rw [List.foldl_cons] at h
    cases line with
    | none => exact ih acc h
    | some ws =>
      rcases ih (acc ++ lineResults ws) h with hacc | hws
      · rcases List.mem_append.mp hacc with h1 | h1
        · exact Or.inl h1
        · exact Or.inr ⟨ws, h1⟩
      · exact hws.elim (fun ws' hws' => Or.inr ⟨ws', hws'⟩)

/-- C6: if aggregation returns a code, that code is itself accepted by
fix_code: aggregate never returns a value that normalization would reject. -/
theorem C6_aggregate_accepted (ocr_results : List (Option (List TextDetection)))
    (c : String) (h : aggregate ocr_results = some c) :
    fix_code (.str c) = c ∧ fix_code (.str c) ≠ "" := by
  have hc : c ∈ collectResults ocr_results := mostCommon1_mem h
  have hsplit := mem_collectResults_aux (c := c) ocr_results [] hc
  rcases hsplit with habs | ⟨ws, hws⟩
  · exact absurd habs (List.not_mem_nil c)
  · obtain ⟨w, _, hfc, hne⟩ := mem_lineResults hws
    have hfc' : fix_code_with ENABLE_CODE_FILTER w.text = c := hfc
    have h1 : fix_code_with ENABLE_CODE_FILTER c = c := by
      rw [← hfc']
      exact fix_code_with_idem ENABLE_CODE_FILTER w.text
    refine ⟨h1, ?_⟩
    show fix_code_with ENABLE_CODE_FILTER c ≠ ""
    rw [h1]
    exact hne

theorem C6_witness :
    fix_code (.str "LKTT123456") = "LKTT123456" ∧ fix_code (.str "LKTT123456") ≠ "" :=
  C6_aggregate_accepted [some [⟨"LKTT123456", mkRat 9 10⟩]] "LKTT123456" (by decide)

/-- C8: for every non-empty results list, the aggregation step returns a
value of the list with maximal occurrence count, and every value encountered
strictly before the winner's first occurrence has a strictly smaller count;
hence two values tying at the maximal count are resolved in favour of the one
encountered first (deterministic first-encountered tie-breaking). -/
theorem C8_most_frequent_first_tiebreak (l : List String) (hne : l ≠ []) :
    ∃ c, mostCommon1 l = some c ∧ c ∈ l ∧
      (∀ x ∈ l, l.count x ≤ l.count c) ∧
      (∀ pre post, l = pre ++ post → c ∉ pre → ∀ x ∈ pre, l.count x < l.count c) := by
  obtain ⟨a, t, rfl⟩ : ∃ a t, l = a :: t := by
    cases l with
    | nil => exact absurd rfl hne
    | cons a t => exact ⟨a, t, rfl⟩
  have hk : keysInOrder (a :: t) = a :: keysAux [a] t := by
    unfold keysInOrder
    rw [keysAux_cons, if_neg (List.not_mem_nil a)]
  have hm1 : mostCommon1 (a :: t) = some (pickMax (a :: t) a (keysAux [a] t)) := by
    unfold mostCommon1
    rw [hk]
  have hcmemkeys : pickMax (a :: t) a (keysAux [a] t) ∈ keysAux [] (a :: t) := by
    rw [show keysAux [] (a :: t) = keysInOrder (a :: t) from rfl, hk]
    exact pickMax_mem _ _ _
  have hcmem : pickMax (a :: t) a (keysAux [a] t) ∈ a :: t :=
    ((mem_keysAux (a :: t) [] _).mp hcmemkeys).1
  refine ⟨pickMax (a :: t) a (keysAux [a] t), hm1, hcmem, ?_, ?_⟩
  · intro x hx
    have hxkeys : x ∈ keysAux [] (a :: t) :=
      (mem_keysAux (a :: t) [] x).mpr ⟨hx, List.not_mem_nil x⟩
    rw [show keysAux [] (a :: t) = keysInOrder (a :: t) from rfl, hk] at hxkeys
    exact pickMax_count_le (a :: t) (keysAux [a] t) a x hxkeys
  · intro pre post hsplit hcpre x hxpre
    obtain ⟨as, bs, hkeq, hlt⟩ := pickMax_first (a :: t) (keysAux [a] t) a
    have hxl : x ∈ a :: t := by
      rw [hsplit]
      exact List.mem_append_left _ hxpre
    have hxkeys : x ∈ keysAux [] (a :: t) :=
      (mem_keysAux (a :: t) [] x).mpr ⟨hxl, List.not_mem_nil x⟩
    rw [show keysAux [] (a :: t) = keysInOrder (a :: t) from rfl, hk, hkeq] at hxkeys
    rcases List.mem_append.mp hxkeys with hxas | hxcbs
    · exact hlt x hxas
    · rcases List.mem_cons.mp hxcbs with hxc | hxbs
      · rw [hxc] at hxpre
        exact absurd hxpre hcpre
      · exfalso
        have hkeys0 : keysAux [] (a :: t) =
            as ++ pickMax (a :: t) a (keysAux [a] t) :: bs := by
          rw [show keysAux [] (a :: t) = keysInOrder (a :: t) from rfl, hk, hkeq]
        obtain ⟨pre', post', hl', hx', hc'⟩ :=
          keysAux_decomp (a :: t) [] as bs _ x hkeys0 hxbs
        have hp1 : pre <+: a :: t := ⟨post, hsplit.symm⟩
        have hp2 : pre' <+: a :: t :=
          ⟨pickMax (a :: t) a (keysAux [a] t) :: post', hl'.symm⟩
        rcases List.prefix_or_prefix_of_prefix hp1 hp2 with hpp | hpp
        · exact hx' (hpp.subset hxpre)
        · obtain ⟨mid, hmid⟩ := hpp
          rw [← hmid, List.append_assoc] at hsplit
          have hmp : pickMax (a :: t) a (keysAux [a] t) :: post' = mid ++ post :=
            List.append_cancel_left (hl'.symm.trans hsplit)
          cases mid with
          | nil =>
            rw [List.append_nil] at hmid
            exact hx' (hmid ▸ hxpre)
          | cons m ms =>
            rw [List.cons_append] at hmp
            injection hmp with hm1 _
            apply hcpre
            rw [← hmid, ← hm1]
            exact List.mem_append_right _ (List.mem_cons_self _ _)

theorem C8_witness :
    ∃ c, mostCommon1 ["B", "A", "A", "B"] = some c ∧ c ∈ ["B", "A", "A", "B"] ∧
      (∀ x ∈ ["B", "A", "A", "B"],
        List.count x ["B", "A", "A", "B"] ≤ List.count c ["B", "A", "A", "B"]) ∧
      (∀ pre post, ["B", "A", "A", "B"] = pre ++ post → c ∉ pre →
        ∀ x ∈ pre, List.count x ["B", "A", "A", "B"] < List.count c ["B", "A", "A", "B"]) :=
  C8_most_frequent_first_tiebreak ["B", "A", "A", "B"] (by decide)

/-- C7 counterexample: the claim's single detection "LKTT99887" is a
9-character code which the length-10 business filter rejects, so the
end-to-end iteration publishes nothing rather than one "LKTT99887". -/
theorem C7_counterexample :
    (main_loop_iter 0 0 0 true true [some [⟨"LKTT99887", mkRat 92 100⟩]]).published = [] ∧
    (main_loop_iter 0 0 0 true true
        [some [⟨"LKTT99887", mkRat 92 100⟩]]).published ≠ ["LKTT99887"] := by
  have h : ¬((0 : ℚ) - 0 > TTL_SECONDS) := by norm_num [TTL_SECONDS]
  have hred : main_loop_iter 0 0 0 true true [some [⟨"LKTT99887", mkRat 92 100⟩]] =
      ⟨[], 0⟩ := by
    unfold main_loop_iter
    rw [if_neg h]
    decide
  rw [hred]
  exact ⟨rfl, by decide⟩

/-- C7 (amended): when a fresh (non-stale) trigger is dequeued, the capture
succeeds, and the OCR detector yields exactly one detection
("LKTT998877", 0.92), exactly one payload "LKTT998877" is published to the
outbound topic and the consecutive-failure counter stays at 0. -/
theorem C7_amended_end_to_end (nowAtDequeue issuedAt : ℚ) (reconnectOk : Bool)
    (h : ¬(nowAtDequeue - issuedAt > TTL_SECONDS)) :
    (main_loop_iter 0 nowAtDequeue issuedAt true reconnectOk
        [some [⟨"LKTT998877", mkRat 92 100⟩]]).published = ["LKTT998877"] ∧
    (main_loop_iter 0 nowAtDequeue issuedAt true reconnectOk
        [some [⟨"LKTT998877", mkRat 92 100⟩]]).failuresAfter = 0 := by
  have hred : main_loop_iter 0 nowAtDequeue issuedAt true reconnectOk
      [some [⟨"LKTT998877", mkRat 92 100⟩]] = ⟨["LKTT998877"], 0⟩ := by
    unfold main_loop_iter
    rw [if_neg h]
    rfl
  rw [hred]
  exact ⟨rfl, rfl⟩

theorem C7_witness :
    (main_loop_iter 0 0 0 true true
        [some [⟨"LKTT998877", mkRat 92 100⟩]]).published = ["LKTT998877"] ∧
    (main_loop_iter 0 0 0 true true
        [some [⟨"LKTT998877", mkRat 92 100⟩]]).failuresAfter = 0 :=
  C7_amended_end_to_end 0 0 true (by norm_num [TTL_SECONDS])
